import Mathlib

/-!
Verification of `time-intervals` (`src/lib.rs`): a validated closed-interval
type over `i64` timestamps (`TimeInterval`), a set builder that sorts the
input by start and merges overlapping or adjacent intervals into a canonical
sequence (`TimeIntervals::new`), and a point-membership query over that
sequence (`TimeIntervals::contains_time`).

Embedding conventions:
* Rust `Time = i64` is embedded as `Int`.  The one arithmetic operation in
  the library that can overflow is `interval.start - 1` inside the fold of
  `TimeIntervals::new`; it is embedded faithfully as `sub64`, the
  two's-complement wrapping subtraction that the release profile performs
  (the debug profile panics instead; `sub64Checked` models that profile,
  with `none` standing for the panic).  Every other operation in the
  library is a comparison and is overflow-free.
* Rust `Vec` becomes `List`.  The fold in `TimeIntervals::new` pushes at
  the back of the `Vec` and mutates its last element; the embedding keeps
  the accumulator reversed (head of the accumulator = last element of the
  `Vec`) and reverses once at the end.
* `slice::partition_point` on a slice that is partitioned by the predicate
  returns the number of leading elements satisfying the predicate; the
  stored sequence is always sorted by `start`, so `fun i => i.start ≤ time`
  partitions it and `partitionPoint` is embedded as the length of the
  matching prefix.  The index `index - 1` that Rust then reads is always in
  bounds (`index ≤ length` and the `index > 0` guard), so the embedding's
  `getD` default is never consulted.
* Rust `sort_by_key` is a stable sort by `start`; it is embedded as
  `List.insertionSort` with the total preorder `startLE`, which is also
  stable, so both produce the same list.
-/

/-- Rust `i64::MIN`. -/
def i64min : Int := -(2 ^ 63)

/-- Rust `i64::MAX`. -/
def i64max : Int := 2 ^ 63 - 1

/-- Two's-complement reduction of an integer into the `i64` range. -/
def wrap64 (x : Int) : Int := (x + 2 ^ 63) % 2 ^ 64 - 2 ^ 63

/-- `a - b` on `i64` with release-profile semantics: overflow wraps. -/
def sub64 (a b : Int) : Int := wrap64 (a - b)

/-- `a - b` on `i64` with debug-profile semantics: `none` models the
"attempt to subtract with overflow" panic. -/
def sub64Checked (a b : Int) : Option Int :=
  if -(2 ^ 63) ≤ a - b ∧ a - b < 2 ^ 63 then some (a - b) else none

/-- `TimeInterval` (src/lib.rs): a closed range of `i64` timestamps.  The
Rust type is correct by construction (`start ≤ end` via `TimeInterval::new`);
here the structure is plain and validity appears as a hypothesis where a
claim needs it. -/
structure TimeInterval where
  start : Int
  «end» : Int
  deriving DecidableEq, Repr

/-- `TimeIntervalError` (src/lib.rs): the single error kind of the crate. -/
inductive TimeIntervalError where
  | invalidInterval
  deriving DecidableEq, Repr

/-- `TimeInterval::new` (src/lib.rs): fails iff `start > end`. -/
def TimeInterval.new (start «end» : Int) : Except TimeIntervalError TimeInterval :=
  if start > «end» then Except.error TimeIntervalError.invalidInterval
  else Except.ok ⟨start, «end»⟩

/-- `TimeIntervals` (src/lib.rs): the canonical sequence wrapper. -/
structure TimeIntervals where
  intervals : List TimeInterval
  deriving DecidableEq, Repr

/-- The sort key relation of `intervals.sort_by_key(|interval| interval.start)`. -/
def startLE (a b : TimeInterval) : Prop := a.start ≤ b.start

instance : DecidableRel startLE := fun a b => Int.decLe a.start b.start

instance : IsTotal TimeInterval startLE := ⟨fun a b => Int.le_total a.start b.start⟩

instance : IsTrans TimeInterval startLE := ⟨fun _ _ _ h h' => le_trans h h'⟩

/-- `intervals.sort_by_key(|interval| interval.start)`: stable sort by start. -/
def sortByStart (l : List TimeInterval) : List TimeInterval :=
  List.insertionSort startLE l

/-- One step of the fold in `TimeIntervals::new` (src/lib.rs lines 71-84),
release-profile semantics.  The accumulator is reversed: its head is the
`Vec`'s last element.  `last.end >= interval.start - 1` merges (extending
the last element's end to the max), otherwise the interval is pushed. -/
def mergeStep (acc : List TimeInterval) (i : TimeInterval) : List TimeInterval :=
  match acc with
  | [] => [i]
  | last :: rest =>
    if last.«end» ≥ sub64 i.start 1 then
      ⟨last.start, max last.«end» i.«end»⟩ :: rest
    else
      i :: last :: rest

/-- `TimeIntervals::new` (src/lib.rs): sort by start, then fold, merging
overlapping or adjacent intervals.  Release-profile semantics. -/
def TimeIntervals.new (l : List TimeInterval) : TimeIntervals :=
  ⟨((sortByStart l).foldl mergeStep []).reverse⟩

/-- The same fold step under debug-profile semantics, where the subtraction
`interval.start - 1` panics (here: `none`) on `i64` overflow. -/
def mergeStepChecked (acc : List TimeInterval) (i : TimeInterval) :
    Option (List TimeInterval) :=
  match acc with
  | [] => some [i]
  | last :: rest =>
    match sub64Checked i.start 1 with
    | none => none
    | some d =>
      some (if last.«end» ≥ d then ⟨last.start, max last.«end» i.«end»⟩ :: rest
            else i :: last :: rest)

/-- `TimeIntervals::new` under debug-profile semantics: `none` models a
panic during construction. -/
def TimeIntervals.newChecked (l : List TimeInterval) : Option TimeIntervals :=
  ((sortByStart l).foldlM mergeStepChecked []).map fun acc => ⟨acc.reverse⟩

/-- `slice::partition_point(|interval| interval.start <= time)` on the stored
sequence, which is always sorted by `start` and hence partitioned by the
predicate: the result is the length of the matching prefix. -/
def partitionPoint (l : List TimeInterval) (time : Int) : Nat :=
  (l.takeWhile fun i => decide (i.start ≤ time)).length

/-- `TimeIntervals::contains_time` (src/lib.rs): empty guard, partition
point, then examine the interval just before the returned index. -/
def TimeIntervals.contains_time (s : TimeIntervals) (time : Int) : Bool :=
  if s.intervals.isEmpty then false
  else
    let index := partitionPoint s.intervals time
    decide (0 < index) && decide ((s.intervals.getD (index - 1) ⟨0, 0⟩).«end» ≥ time)

/-- `TimeIntervals::is_empty` (src/lib.rs). -/
def TimeIntervals.is_empty (s : TimeIntervals) : Bool :=
  s.intervals.isEmpty

/-- The `collect::<Result<Vec<TimeInterval>, _>>()` step of
`TryFrom<&[(Time, Time)]> for TimeIntervals`: validate each pair through
`TimeInterval::new`, short-circuiting on the first error. -/
def collectIntervals (l : List (Int × Int)) :
    Except TimeIntervalError (List TimeInterval) :=
  match l with
  | [] => Except.ok []
  | p :: rest =>
    match TimeInterval.new p.1 p.2 with
    | Except.error e => Except.error e
    | Except.ok i =>
      match collectIntervals rest with
      | Except.error e => Except.error e
      | Except.ok is => Except.ok (i :: is)

/-- `TryFrom<&[(Time, Time)]> for TimeIntervals` (src/lib.rs lines 129-138):
validate each pair, short-circuiting on the first error, then build through
`TimeIntervals::new` (via the `FromIterator` impl). -/
def tryFromPairs (l : List (Int × Int)) : Except TimeIntervalError TimeIntervals :=
  (collectIntervals l).map TimeIntervals.new

/-- A time `t` lies in the closed interval `i`. -/
def covers (i : TimeInterval) (t : Int) : Prop :=
  i.start ≤ t ∧ t ≤ i.«end»

instance (i : TimeInterval) (t : Int) : Decidable (covers i t) :=
  inferInstanceAs (Decidable (i.start ≤ t ∧ t ≤ i.«end»))

/-- C4: for all integers s and e, `TimeInterval::new s e` succeeds with the
interval `⟨s, e⟩` iff `s ≤ e`, and fails with the single `InvalidInterval`
error iff `s > e`. -/
theorem timeInterval_new_ok_iff (s e : Int) :
    (TimeInterval.new s e = Except.ok ⟨s, e⟩ ↔ s ≤ e) ∧
    (TimeInterval.new s e = Except.error TimeIntervalError.invalidInterval ↔ e < s) := by
  unfold TimeInterval.new
  constructor
  · constructor
    · intro h
      by_contra hlt
      rw [if_pos (lt_of_not_le hlt)] at h
      exact Except.noConfusion h
    · intro h
      rw [if_neg (not_lt.mpr h)]
  · constructor
    · intro h
      by_contra hle
      rw [if_neg (fun hgt => hle hgt)] at h
      exact Except.noConfusion h
    · intro h
      rw [if_pos h]

/-- C10: building from the empty input yields a set that `is_empty` and
contains no time at all. -/
theorem new_nil_isEmpty_and_contains_false :
    (TimeIntervals.new []).is_empty = true ∧
    ∀ t : Int, (TimeIntervals.new []).contains_time t = false := by
  constructor
  · rfl
  · intro t
    rfl

/-- C8: a set built from a single valid interval `⟨s, e⟩` reports
`contains_time t = true` for every `t` in `[s, e]`, and reports `false` at
`s - 1` and at `e + 1`. -/
theorem singleton_contains_iff (s e : Int) (h : s ≤ e) :
    (∀ t : Int, s ≤ t → t ≤ e → (TimeIntervals.new [⟨s, e⟩]).contains_time t = true) ∧
    (TimeIntervals.new [⟨s, e⟩]).contains_time (s - 1) = false ∧
    (TimeIntervals.new [⟨s, e⟩]).contains_time (e + 1) = false := by
  have hnew : TimeIntervals.new [⟨s, e⟩] = ⟨[⟨s, e⟩]⟩ := rfl
  refine ⟨?_, ?_, ?_⟩
  · intro t hs ht
    simp [hnew, TimeIntervals.contains_time, partitionPoint, List.takeWhile, hs, ht]
  · have hs : ¬ (s ≤ s - 1) := by omega
    simp [hnew, TimeIntervals.contains_time, partitionPoint, List.takeWhile, hs]
  · have hs : s ≤ e + 1 := by omega
    have he : ¬ (e + 1 ≤ e) := by omega
    simp [hnew, TimeIntervals.contains_time, partitionPoint, List.takeWhile, hs, he]

/-- C8 witness at the concrete interval `[1, 2]`. -/
theorem singleton_contains_iff_witness :
    (TimeIntervals.new [⟨1, 2⟩]).contains_time 2 = true ∧
    (TimeIntervals.new [⟨1, 2⟩]).contains_time 0 = false ∧
    (TimeIntervals.new [⟨1, 2⟩]).contains_time 3 = false :=
  ⟨(singleton_contains_iff 1 2 (by decide)).1 2 (by decide) (by decide),
   (singleton_contains_iff 1 2 (by decide)).2.1,
   (singleton_contains_iff 1 2 (by decide)).2.2⟩

/-- Validation of a pair list succeeds with the element-wise intervals when
every pair is valid. -/
theorem collectIntervals_ok (l : List (Int × Int)) (h : ∀ p ∈ l, p.1 ≤ p.2) :
    collectIntervals l = Except.ok (l.map fun p => (⟨p.1, p.2⟩ : TimeInterval)) := by
  induction l with
  | nil => rfl
  | cons p l ih =>
    have hp : TimeInterval.new p.1 p.2 = Except.ok ⟨p.1, p.2⟩ := by
      unfold TimeInterval.new
      rw [if_neg (not_lt.mpr (h p (List.mem_cons_self p l)))]
    have ih' := ih fun q hq => h q (List.mem_cons_of_mem p hq)
    simp [collectIntervals, hp, ih']

/-- Validation of a pair list short-circuits to the error when some pair is
invalid. -/
theorem collectIntervals_error (l : List (Int × Int)) (h : ∃ p ∈ l, p.2 < p.1) :
    collectIntervals l = Except.error TimeIntervalError.invalidInterval := by
  induction l with
  | nil => simp at h
  | cons p l ih =>
    by_cases hp : p.2 < p.1
    · have hperr : TimeInterval.new p.1 p.2
          = Except.error TimeIntervalError.invalidInterval := by
        unfold TimeInterval.new
        rw [if_pos hp]
      simp [collectIntervals, hperr]
    · obtain ⟨q, hq, hqlt⟩ := h
      rcases List.mem_cons.mp hq with rfl | hq'
      · exact absurd hqlt hp
      · have hpok : TimeInterval.new p.1 p.2 = Except.ok ⟨p.1, p.2⟩ := by
          unfold TimeInterval.new
          rw [if_neg (fun hgt => hp hgt)]
        simp [collectIntervals, hpok, ih ⟨q, hq', hqlt⟩]

/-- C9: batch construction from raw pairs fails with the single
`InvalidInterval` error exactly when some pair is invalid (so the caller
never receives a partial set), and when every pair is valid it succeeds
with the set built from those pairs. -/
theorem tryFromPairs_spec (l : List (Int × Int)) :
    (tryFromPairs l = Except.error TimeIntervalError.invalidInterval
        ↔ ∃ p ∈ l, p.2 < p.1) ∧
    ((∀ p ∈ l, p.1 ≤ p.2) →
      tryFromPairs l
        = Except.ok (TimeIntervals.new (l.map fun p => (⟨p.1, p.2⟩ : TimeInterval)))) := by
  constructor
  · constructor
    · intro herr
      by_contra hno
      push_neg at hno
      have hall : ∀ p ∈ l, p.1 ≤ p.2 := fun p hp => le_of_not_lt (fun hlt => by
        have := hno p hp
        omega)
      have := collectIntervals_ok l hall
      unfold tryFromPairs at herr
      rw [this] at herr
      simp [Except.map] at herr
    · intro hex
      unfold tryFromPairs
      rw [collectIntervals_error l hex]
      rfl
  · intro hall
    unfold tryFromPairs
    rw [collectIntervals_ok l hall]
    rfl

/-- C9 witness: a list with an invalid pair fails; an all-valid list builds. -/
theorem tryFromPairs_spec_witness :
    tryFromPairs [(1, 2), (2, 1)] = Except.error TimeIntervalError.invalidInterval ∧
    tryFromPairs [(1, 2), (3, 4)]
      = Except.ok (TimeIntervals.new [⟨1, 2⟩, ⟨3, 4⟩]) :=
  ⟨(tryFromPairs_spec [(1, 2), (2, 1)]).1.mpr ⟨(2, 1), by decide, by decide⟩,
   (tryFromPairs_spec [(1, 2), (3, 4)]).2 (by decide)⟩

/-- C1 failing input: both inputs are valid intervals and `⟨i64min, 10⟩`
covers the time 7, yet the set built from them answers `false` at 7.  The
cause: when the second sorted interval also starts at `i64::MIN`, the fold's
`interval.start - 1` wraps to `i64::MAX` (release profile), so two
overlapping intervals are not merged, and the partition-point query then
inspects only the later one. -/
theorem contains_time_misses_point_at_i64min :
    (∀ i ∈ [(⟨i64min, 10⟩ : TimeInterval), ⟨i64min, 5⟩], i.start ≤ i.«end») ∧
    covers ⟨i64min, 10⟩ 7 ∧
    (TimeIntervals.new [⟨i64min, 10⟩, ⟨i64min, 5⟩]).contains_time 7 = false := by
  refine ⟨by decide, by decide, by decide⟩

/-- C2 failing input: the stored sequence built from two valid intervals
starting at `i64::MIN` keeps both entries, and the consecutive pair violates
the canonical-form condition `b.start > a.end + 1` (the two entries overlap). -/
theorem new_not_canonical_at_i64min :
    (∀ i ∈ [(⟨i64min, 10⟩ : TimeInterval), ⟨i64min, 5⟩], i.start ≤ i.«end») ∧
    (TimeIntervals.new [⟨i64min, 10⟩, ⟨i64min, 5⟩]).intervals
      = [⟨i64min, 10⟩, ⟨i64min, 5⟩] ∧
    ¬ ((⟨i64min, 5⟩ : TimeInterval).start
        > (⟨i64min, 10⟩ : TimeInterval).«end» + 1) := by
  refine ⟨by decide, by decide, by decide⟩

/-- C3 failing input: under the debug profile (overflow checks on, as in
`cargo test`), constructing from two valid intervals starting at `i64::MIN`
panics at `interval.start - 1`; the checked embedding returns `none`. -/
theorem newChecked_panics_at_i64min :
    (∀ i ∈ [(⟨i64min, 0⟩ : TimeInterval), ⟨i64min, 0⟩], i.start ≤ i.«end») ∧
    TimeIntervals.newChecked [⟨i64min, 0⟩, ⟨i64min, 0⟩] = none := by
  refine ⟨by decide, by decide⟩

/-- C5 failing input: with the last output entry `⟨i64min, 10⟩` and current
interval `⟨i64min, 5⟩`, the claim's merge condition
`interval.start ≤ last.end + 1` holds, yet the fold appends instead of
merging (the wrapped `interval.start - 1` equals `i64::MAX`), leaving two
entries where the claim predicts one. -/
theorem mergeStep_appends_despite_touching_at_i64min :
    (⟨i64min, 5⟩ : TimeInterval).start ≤ (⟨i64min, 10⟩ : TimeInterval).«end» + 1 ∧
    mergeStep [⟨i64min, 10⟩] ⟨i64min, 5⟩ = [⟨i64min, 5⟩, ⟨i64min, 10⟩] ∧
    (TimeIntervals.new [⟨i64min, 10⟩, ⟨i64min, 5⟩]).intervals.length = 2 := by
  refine ⟨by decide, by decide, by decide⟩

/-- C6 failing input: the two orderings of the same two valid intervals
starting at `i64::MIN` build different stored sequences, because the stable
sort preserves the input order of equal starts and the wrapped comparison
prevents the merge that would make the results agree. -/
theorem new_order_dependent_at_i64min :
    List.Perm [(⟨i64min, 5⟩ : TimeInterval), ⟨i64min, 10⟩]
      [⟨i64min, 10⟩, ⟨i64min, 5⟩] ∧
    (∀ i ∈ [(⟨i64min, 5⟩ : TimeInterval), ⟨i64min, 10⟩], i.start ≤ i.«end») ∧
    (TimeIntervals.new [⟨i64min, 5⟩, ⟨i64min, 10⟩]).intervals
      ≠ (TimeIntervals.new [⟨i64min, 10⟩, ⟨i64min, 5⟩]).intervals := by
  refine ⟨List.Perm.swap _ _ _, by decide, by decide⟩

/-- Fold invariant of `TimeIntervals::new`: starting from a start-sorted
remaining input and a reversed accumulator whose starts are nonincreasing
(toward its head) and whose consecutive entries all failed the merge test,
the fold preserves both properties.  Relations read `fun b a => ...` because
the accumulator is reversed: `b` sits closer to the head, i.e. later in the
`Vec`, than `a`. -/
theorem foldl_mergeStep_inv (s : List TimeInterval) :
    ∀ acc : List TimeInterval,
      List.Sorted startLE s →
      (∀ h x, acc.head? = some h → x ∈ s → h.start ≤ x.start) →
      List.Chain' (fun b a => a.start ≤ b.start) acc →
      List.Chain' (fun b a => ¬ a.«end» ≥ sub64 b.start 1) acc →
      List.Chain' (fun b a => a.start ≤ b.start) (s.foldl mergeStep acc) ∧
      List.Chain' (fun b a => ¬ a.«end» ≥ sub64 b.start 1) (s.foldl mergeStep acc) := by
  induction s with
  | nil =>
    intro acc _ _ h1 h2
    exact ⟨h1, h2⟩
  | cons x xs ih =>
    intro acc hsort hhead h1 h2
    rw [List.foldl_cons]
    have hsort' : List.Sorted startLE xs := hsort.of_cons
    have hx : ∀ y ∈ xs, x.start ≤ y.start :=
      fun y hy => List.rel_of_sorted_cons hsort y hy
    cases acc with
    | nil =>
      have hstep : mergeStep [] x = [x] := rfl
      rw [hstep]
      refine ih [x] hsort' ?_ (List.chain'_singleton x) (List.chain'_singleton x)
      intro h y hh hy
      simp only [List.head?_cons, Option.some.injEq] at hh
      subst hh
      exact hx y hy
    | cons h t =>
      have hhx : h.start ≤ x.start := hhead h x rfl (List.mem_cons_self x xs)
      by_cases c : h.«end» ≥ sub64 x.start 1
      · have hstep : mergeStep (h :: t) x = ⟨h.start, max h.«end» x.«end»⟩ :: t := by
          simp [mergeStep, c]
        rw [hstep]
        refine ih _ hsort' ?_ ?_ ?_
        · intro h' y hh' hy
          simp only [List.head?_cons, Option.some.injEq] at hh'
          subst hh'
          exact le_trans hhx (hx y hy)
        · cases t with
          | nil => exact List.chain'_singleton _
          | cons u t' =>
            rw [List.chain'_cons] at h1 ⊢
            exact ⟨h1.1, h1.2⟩
        · cases t with
          | nil => exact List.chain'_singleton _
          | cons u t' =>
            rw [List.chain'_cons] at h2 ⊢
            exact ⟨h2.1, h2.2⟩
      · have hstep : mergeStep (h :: t) x = x :: h :: t := by
          simp [mergeStep, c]
        rw [hstep]
        refine ih _ hsort' ?_ ?_ ?_
        · intro h' y hh' hy
          simp only [List.head?_cons, Option.some.injEq] at hh'
          subst hh'
          exact hx y hy
        · rw [List.chain'_cons]
          exact ⟨hhx, h1⟩
        · rw [List.chain'_cons]
          exact ⟨c, h2⟩

/-- When every consecutive pair of the folded list fails the merge test (and
the accumulator's head also fails it against the first element), the fold
only pushes: it returns the reversed input on top of the accumulator. -/
theorem foldl_mergeStep_pushes (m : List TimeInterval) :
    ∀ acc : List TimeInterval,
      (∀ h x, acc.head? = some h → m.head? = some x → ¬ h.«end» ≥ sub64 x.start 1) →
      List.Chain' (fun a b => ¬ a.«end» ≥ sub64 b.start 1) m →
      m.foldl mergeStep acc = m.reverse ++ acc := by
  induction m with
  | nil =>
    intro acc _ _
    simp
  | cons x xs ih =>
    intro acc hhead hchain
    rw [List.foldl_cons]
    have hstep : mergeStep acc x = x :: acc := by
      cases acc with
      | nil => rfl
      | cons h t =>
        have hc := hhead h x rfl rfl
        simp [mergeStep, hc]
    rw [hstep]
    have hch' : List.Chain' (fun a b => ¬ a.«end» ≥ sub64 b.start 1) xs := hchain.tail
    have hh : ∀ h y, (x :: acc).head? = some h → xs.head? = some y →
        ¬ h.«end» ≥ sub64 y.start 1 := by
      intro h y hh hy
      simp only [List.head?_cons, Option.some.injEq] at hh
      subst hh
      cases xs with
      | nil => simp at hy
      | cons z zs =>
        simp only [List.head?_cons, Option.some.injEq] at hy
        subst hy
        exact (List.chain'_cons.mp hchain).1
    rw [ih (x :: acc) hh hch']
    simp

/-- C7: construction is idempotent — rebuilding from the stored sequence of
any built set returns that same set (stored sequences are fixed points of
`TimeIntervals::new`).  Proved for the release-profile embedding with no
hypotheses: even a non-canonical stored sequence from the `i64::MIN` edge
rebuilds to itself, because the wrapped merge test fails again exactly
where it failed during construction. -/
theorem new_idempotent (l : List TimeInterval) :
    TimeIntervals.new (TimeIntervals.new l).intervals = TimeIntervals.new l := by
  obtain ⟨H1, H2⟩ := foldl_mergeStep_inv (sortByStart l) []
    (List.sorted_insertionSort startLE l) (fun h x hh _ => by simp at hh)
    List.chain'_nil List.chain'_nil
  set out := (sortByStart l).foldl mergeStep [] with hout
  have hsorted : List.Sorted startLE out.reverse :=
    List.chain'_iff_pairwise.mp (List.chain'_reverse.mpr H1)
  have hchainrev : List.Chain' (fun a b => ¬ a.«end» ≥ sub64 b.start 1) out.reverse :=
    List.chain'_reverse.mpr H2
  have hsort_eq : sortByStart out.reverse = out.reverse :=
    hsorted.insertionSort_eq
  have hfold : out.reverse.foldl mergeStep [] = out.reverse.reverse ++ [] :=
    foldl_mergeStep_pushes out.reverse [] (fun h x hh _ => by simp at hh) hchainrev
  show TimeIntervals.new out.reverse = TimeIntervals.new l
  unfold TimeIntervals.new
  rw [hsort_eq, hfold]
  simp

/-- `wrap64` is the identity on values already in the `i64` range. -/
theorem wrap64_eq_self (x : Int) (h1 : -(2 ^ 63) ≤ x) (h2 : x < 2 ^ 63) :
    wrap64 x = x := by
  unfold wrap64
  rw [Int.emod_eq_of_lt (by omega) (by omega)]
  omega

/-- Away from `i64::MIN`, the fold's wrapped `start - 1` is the exact
integer subtraction. -/
theorem sub64_one_eq (a : Int) (h1 : i64min < a) (h2 : a ≤ i64max) :
    sub64 a 1 = a - 1 := by
  unfold i64min at h1
  unfold i64max at h2
  unfold sub64
  exact wrap64_eq_self _ (by omega) (by omega)

/-- Away from `i64::MIN`, the fold step does exactly what the spec says:
merge (extending the end to the max) when `interval.start ≤ last.end + 1`,
append otherwise. -/
theorem mergeStep_matches_spec_away_from_min (h x : TimeInterval)
    (t : List TimeInterval) (hr1 : i64min < x.start) (hr2 : x.start ≤ i64max) :
    mergeStep (h :: t) x =
      if x.start ≤ h.«end» + 1 then ⟨h.start, max h.«end» x.«end»⟩ :: t
      else x :: h :: t := by
  have hsub : sub64 x.start 1 = x.start - 1 := sub64_one_eq _ hr1 hr2
  by_cases c : x.start ≤ h.«end» + 1
  · have c' : h.«end» ≥ sub64 x.start 1 := by rw [hsub]; omega
    simp [mergeStep, c, c']
  · have c' : ¬ h.«end» ≥ sub64 x.start 1 := by rw [hsub]; omega
    simp [mergeStep, c, c']

/-- Merging an interval into the last output entry neither loses nor adds
covered points, provided the two touch (`x.start - 1 ≤ h.end`) and the last
entry starts no later (`h.start ≤ x.start`). -/
theorem covers_merged (h x : TimeInterval) (t : Int)
    (hsx : h.start ≤ x.start) (hc : x.start - 1 ≤ h.«end») :
    covers ⟨h.start, max h.«end» x.«end»⟩ t ↔ covers h t ∨ covers x t := by
  unfold covers
  simp only
  omega

/-- Every element of the fold's output takes its `start` from the
accumulator or from the remaining input (merges keep the last entry's
start, pushes copy an input interval). -/
theorem foldl_mergeStep_start_mem (s : List TimeInterval) :
    ∀ acc : List TimeInterval, ∀ j ∈ s.foldl mergeStep acc,
      (∃ i ∈ acc, j.start = i.start) ∨ (∃ i ∈ s, j.start = i.start) := by
  induction s with
  | nil =>
    intro acc j hj
    exact Or.inl ⟨j, hj, rfl⟩
  | cons x xs ih =>
    intro acc j hj
    rw [List.foldl_cons] at hj
    have step : ∀ k ∈ mergeStep acc x,
        (∃ i ∈ acc, k.start = i.start) ∨ k.start = x.start := by
      intro k hk
      cases acc with
      | nil =>
        simp only [mergeStep, List.mem_singleton] at hk
        exact Or.inr (by rw [hk])
      | cons hd tl =>
        by_cases c : hd.«end» ≥ sub64 x.start 1
        · simp only [mergeStep, if_pos c, List.mem_cons] at hk
          rcases hk with rfl | hk
          · exact Or.inl ⟨hd, List.mem_cons_self hd tl, rfl⟩
          · exact Or.inl ⟨k, List.mem_cons_of_mem hd hk, rfl⟩
        · simp only [mergeStep, if_neg c, List.mem_cons] at hk
          rcases hk with rfl | hk
          · exact Or.inr rfl
          · exact Or.inl ⟨k, List.mem_cons.mpr hk, rfl⟩
    rcases ih (mergeStep acc x) j hj with ⟨i, hi, hji⟩ | ⟨i, hi, hji⟩
    · rcases step i hi with ⟨i', hi', hii'⟩ | hix
      · exact Or.inl ⟨i', hi', by rw [hji, hii']⟩
      · exact Or.inr ⟨x, List.mem_cons_self x xs, by rw [hji, hix]⟩
    · exact Or.inr ⟨i, List.mem_cons_of_mem x hi, hji⟩

/-- The fold preserves validity of the entries. -/
theorem foldl_mergeStep_valid (s : List TimeInterval) :
    ∀ acc : List TimeInterval,
      (∀ j ∈ acc, j.start ≤ j.«end») → (∀ i ∈ s, i.start ≤ i.«end») →
      ∀ j ∈ s.foldl mergeStep acc, j.start ≤ j.«end» := by
  induction s with
  | nil =>
    intro acc hacc _ j hj
    exact hacc j hj
  | cons x xs ih =>
    intro acc hacc hs j hj
    rw [List.foldl_cons] at hj
    have hx : x.start ≤ x.«end» := hs x (List.mem_cons_self x xs)
    have hstep : ∀ k ∈ mergeStep acc x, k.start ≤ k.«end» := by
      intro k hk
      cases acc with
      | nil =>
        simp only [mergeStep, List.mem_singleton] at hk
        rw [hk]; exact hx
      | cons hd tl =>
        have hhd : hd.start ≤ hd.«end» := hacc hd (List.mem_cons_self hd tl)
        by_cases c : hd.«end» ≥ sub64 x.start 1
        · simp only [mergeStep, if_pos c, List.mem_cons] at hk
          rcases hk with rfl | hk
          · simp only
            omega
          · exact hacc k (List.mem_cons_of_mem hd hk)
        · simp only [mergeStep, if_neg c, List.mem_cons] at hk
          rcases hk with rfl | hk
          · exact hx
          · exact hacc k (List.mem_cons.mpr hk)
    exact ih (mergeStep acc x) hstep (fun i hi => hs i (List.mem_cons_of_mem x hi)) j hj

/-- Coverage preservation of the fold: over a start-sorted input whose
starts stay away from `i64::MIN`, each step's output covers exactly the
points covered by the accumulator or by the input processed so far (a merge
neither loses nor adds covered points thanks to `covers_merged`). -/
theorem foldl_mergeStep_covers (s : List TimeInterval) :
    ∀ acc : List TimeInterval, ∀ t : Int,
      List.Sorted startLE s →
      (∀ i ∈ s, i64min < i.start ∧ i.start ≤ i64max) →
      (∀ h x, acc.head? = some h → x ∈ s → h.start ≤ x.start) →
      ((∃ i ∈ s.foldl mergeStep acc, covers i t) ↔
        (∃ i ∈ acc, covers i t) ∨ (∃ i ∈ s, covers i t)) := by
  induction s with
  | nil =>
    intro acc t _ _ _
    simp
  | cons x xs ih =>
    intro acc t hsort hrange hhead
    rw [List.foldl_cons]
    have hsort' : List.Sorted startLE xs := hsort.of_cons
    have hrange' : ∀ i ∈ xs, i64min < i.start ∧ i.start ≤ i64max :=
      fun i hi => hrange i (List.mem_cons_of_mem x hi)
    have hx : ∀ y ∈ xs, x.start ≤ y.start :=
      fun y hy => List.rel_of_sorted_cons hsort y hy
    cases acc with
    | nil =>
      have hstep : mergeStep [] x = [x] := rfl
      rw [hstep]
      rw [ih [x] t hsort' hrange' (fun h y hh hy => by
        simp only [List.head?_cons, Option.some.injEq] at hh
        subst hh
        exact hx y hy)]
      rw [List.exists_mem_cons_iff, List.exists_mem_cons_iff]
      simp
    | cons hd tl =>
      have hhx : hd.start ≤ x.start := hhead hd x rfl (List.mem_cons_self x xs)
      by_cases c : hd.«end» ≥ sub64 x.start 1
      · have hstep : mergeStep (hd :: tl) x = ⟨hd.start, max hd.«end» x.«end»⟩ :: tl := by
          simp [mergeStep, c]
        rw [hstep]
        have hmerge : covers ⟨hd.start, max hd.«end» x.«end»⟩ t ↔ covers hd t ∨ covers x t := by
          refine covers_merged hd x t hhx ?_
          have hr := hrange x (List.mem_cons_self x xs)
          rw [sub64_one_eq x.start hr.1 hr.2] at c
          omega
        rw [ih _ t hsort' hrange' (fun h y hh hy => by
          simp only [List.head?_cons, Option.some.injEq] at hh
          subst hh
          exact le_trans hhx (hx y hy))]
        simp only [List.exists_mem_cons_iff, hmerge]
        itauto
      · have hstep : mergeStep (hd :: tl) x = x :: hd :: tl := by
          simp [mergeStep, c]
        rw [hstep]
        rw [ih _ t hsort' hrange' (fun h y hh hy => by
          simp only [List.head?_cons, Option.some.injEq] at hh
          subst hh
          exact hx y hy)]
        simp only [List.exists_mem_cons_iff]
        itauto

/-- The set built away from `i64::MIN` covers exactly the points covered by
some input interval. -/
theorem new_covers_iff (l : List TimeInterval) (t : Int)
    (hrange : ∀ i ∈ l, i64min < i.start ∧ i.start ≤ i64max) :
    ((∃ i ∈ (TimeIntervals.new l).intervals, covers i t) ↔ ∃ i ∈ l, covers i t) := by
  have hperm : (sortByStart l).Perm l := List.perm_insertionSort startLE l
  have hrange' : ∀ i ∈ sortByStart l, i64min < i.start ∧ i.start ≤ i64max :=
    fun i hi => hrange i (hperm.subset hi)
  have hcov := foldl_mergeStep_covers (sortByStart l) [] t
    (List.sorted_insertionSort startLE l) hrange' (fun h x hh _ => by simp at hh)
  have hmemrev : ∀ i, i ∈ (TimeIntervals.new l).intervals ↔
      i ∈ (sortByStart l).foldl mergeStep [] := by
    intro i
    unfold TimeIntervals.new
    exact List.mem_reverse
  constructor
  · intro ⟨i, hi, hci⟩
    have : ∃ i ∈ (sortByStart l).foldl mergeStep [], covers i t :=
      ⟨i, (hmemrev i).mp hi, hci⟩
    rcases hcov.mp this with ⟨j, hj, _⟩ | ⟨j, hj, hcj⟩
    · exact absurd hj (List.not_mem_nil j)
    · exact ⟨j, hperm.subset hj, hcj⟩
  · intro ⟨i, hi, hci⟩
    have : (∃ i ∈ ([] : List TimeInterval), covers i t) ∨
        ∃ i ∈ sortByStart l, covers i t :=
      Or.inr ⟨i, hperm.symm.subset hi, hci⟩
    rcases hcov.mpr this with ⟨j, hj, hcj⟩
    exact ⟨j, (hmemrev j).mpr hj, hcj⟩

/-- Failing the (wrapped) merge test between consecutive entries whose
starts are away from `i64::MIN` is exactly the canonical gap condition
`a.end + 1 < b.start`. -/
theorem chain'_gap_of_nomerge (m : List TimeInterval)
    (hm : ∀ b ∈ m, i64min < b.start ∧ b.start ≤ i64max)
    (hc : List.Chain' (fun a b => ¬ a.«end» ≥ sub64 b.start 1) m) :
    List.Chain' (fun a b => a.«end» + 1 < b.start) m := by
  induction m with
  | nil => exact List.chain'_nil
  | cons x xs ih =>
    cases xs with
    | nil => exact List.chain'_singleton x
    | cons y ys =>
      rw [List.chain'_cons] at hc ⊢
      have hy := hm y (List.mem_cons_of_mem x (List.mem_cons_self y ys))
      have hsub := sub64_one_eq y.start hy.1 hy.2
      refine ⟨?_, ih (fun b hb => hm b (List.mem_cons_of_mem x hb)) hc.2⟩
      have h1 := hc.1
      rw [hsub] at h1
      omega

/-- Supporting C2 away from the overflow edge: when every input start is
strictly above `i64::MIN` (and at most `i64::MAX`), the stored sequence is
canonical — sorted ascending by start with every consecutive pair separated
by a gap of at least 2 (no overlap, no adjacency). -/
theorem new_canonical_away_from_min (l : List TimeInterval)
    (hrange : ∀ i ∈ l, i64min < i.start ∧ i.start ≤ i64max) :
    List.Sorted startLE (TimeIntervals.new l).intervals ∧
    List.Chain' (fun a b => a.«end» + 1 < b.start) (TimeIntervals.new l).intervals := by
  obtain ⟨H1, H2⟩ := foldl_mergeStep_inv (sortByStart l) []
    (List.sorted_insertionSort startLE l) (fun h x hh _ => by simp at hh)
    List.chain'_nil List.chain'_nil
  have hsorted : List.Sorted startLE ((sortByStart l).foldl mergeStep []).reverse :=
    List.chain'_iff_pairwise.mp (List.chain'_reverse.mpr H1)
  have hchainrev : List.Chain' (fun a b => ¬ a.«end» ≥ sub64 b.start 1)
      ((sortByStart l).foldl mergeStep []).reverse := List.chain'_reverse.mpr H2
  have hmem : ∀ j ∈ ((sortByStart l).foldl mergeStep []).reverse,
      i64min < j.start ∧ j.start ≤ i64max := by
    intro j hj
    rw [List.mem_reverse] at hj
    rcases foldl_mergeStep_start_mem (sortByStart l) [] j hj with ⟨i, hi, _⟩ | ⟨i, hi, heq⟩
    · exact absurd hi (List.not_mem_nil i)
    · have hr := hrange i ((List.perm_insertionSort startLE l).subset hi)
      rw [heq]
      exact hr
  exact ⟨hsorted, chain'_gap_of_nomerge _ hmem hchainrev⟩

/-- Unfolding of `contains_time` into its partition-point condition. -/
theorem contains_time_eq_true_iff (m : List TimeInterval) (t : Int) :
    (TimeIntervals.contains_time ⟨m⟩ t = true ↔
      0 < partitionPoint m t ∧
        t ≤ (m.getD (partitionPoint m t - 1) ⟨0, 0⟩).«end») := by
  cases m with
  | nil => simp [TimeIntervals.contains_time, partitionPoint]
  | cons x xs =>
    simp [TimeIntervals.contains_time, Bool.and_eq_true, decide_eq_true_iff, ge_iff_le]

/-- The partition-point query is correct on any stored sequence that is
sorted by start with non-overlapping consecutive entries: it answers `true`
exactly when some entry covers the queried time. -/
theorem contains_time_iff_of_canonical (m : List TimeInterval) (t : Int)
    (hs : List.Sorted startLE m)
    (hg : List.Chain' (fun a b => a.«end» < b.start) m) :
    (TimeIntervals.contains_time ⟨m⟩ t = true ↔ ∃ i ∈ m, covers i t) := by
  induction m with
  | nil => simp [TimeIntervals.contains_time]
  | cons x xs ih =>
    have hs' : List.Sorted startLE xs := hs.of_cons
    have hg' : List.Chain' (fun a b => a.«end» < b.start) xs := hg.tail
    rw [contains_time_eq_true_iff]
    by_cases hxt : x.start ≤ t
    · cases xs with
      | nil =>
        simp only [partitionPoint, List.takeWhile, hxt, decide_eq_true_eq, covers]
        simp [hxt, covers]
      | cons y ys =>
        by_cases hyt : y.start ≤ t
        · -- the head cannot contain t: x.end < y.start ≤ t
          have hxe : x.«end» < y.start := (List.chain'_cons.mp hg).1
          have hppx : partitionPoint (x :: y :: ys) t = partitionPoint (y :: ys) t + 1 := by
            simp [partitionPoint, List.takeWhile, hxt]
          have hpp_pos : 0 < partitionPoint (y :: ys) t := by
            simp [partitionPoint, List.takeWhile, hyt]
          have hget : (x :: y :: ys).getD (partitionPoint (y :: ys) t + 1 - 1) ⟨0, 0⟩
              = (y :: ys).getD (partitionPoint (y :: ys) t - 1) ⟨0, 0⟩ := by
            rcases Nat.exists_eq_add_of_lt hpp_pos with ⟨k, hk⟩
            rw [hk]
            simp [List.getD_cons_succ]
          rw [hppx, hget]
          have hxscov : ¬ covers x t := fun hcov => absurd hcov.2 (by omega)
          rw [List.exists_mem_cons_iff]
          have hrec := ih hs' hg'
          rw [contains_time_eq_true_iff] at hrec
          constructor
          · intro hcond
            exact Or.inr (hrec.mp ⟨hpp_pos, hcond.2⟩)
          · intro hex
            rcases hex with hcx | hex
            · exact absurd hcx hxscov
            · exact ⟨by omega, (hrec.mpr hex).2⟩
        · -- partition point is 1: only the head is a candidate
          have hpp : partitionPoint (x :: y :: ys) t = 1 := by
            simp [partitionPoint, List.takeWhile, hxt, hyt]
          rw [hpp]
          have hnoxs : ∀ i ∈ y :: ys, ¬ covers i t := by
            intro i hi hcov
            have : y.start ≤ i.start := by
              rcases List.mem_cons.mp hi with rfl | hi'
              · exact le_refl _
              · exact List.rel_of_sorted_cons hs' i hi'
            exact hyt (le_trans this hcov.1)
          simp only [Nat.sub_self, List.getD_cons_zero]
          rw [List.exists_mem_cons_iff]
          constructor
          · intro hcond
            exact Or.inl ⟨hxt, hcond.2⟩
          · intro hex
            rcases hex with hcx | ⟨i, hi, hci⟩
            · exact ⟨Nat.zero_lt_one, hcx.2⟩
            · exact absurd hci (hnoxs i hi)
    · -- t is left of every interval
      have hpp : partitionPoint (x :: xs) t = 0 := by
        simp [partitionPoint, List.takeWhile, hxt]
      rw [hpp]
      have hno : ∀ i ∈ x :: xs, ¬ covers i t := by
        intro i hi hcov
        have : x.start ≤ i.start := by
          rcases List.mem_cons.mp hi with rfl | hi'
          · exact le_refl _
          · exact List.rel_of_sorted_cons hs i hi'
        exact hxt (le_trans this hcov.1)
      constructor
      · intro hcond
        exact absurd hcond.1 (by omega)
      · intro ⟨i, hi, hci⟩
        exact absurd hci (hno i hi)

/-- Supporting C1 away from the overflow edge: when every input start is
strictly above `i64::MIN` (and at most `i64::MAX`), `contains_time` answers
`true` exactly when some input interval covers the queried time. -/
theorem contains_time_iff_away_from_min (l : List TimeInterval) (t : Int)
    (hrange : ∀ i ∈ l, i64min < i.start ∧ i.start ≤ i64max) :
    ((TimeIntervals.new l).contains_time t = true ↔ ∃ i ∈ l, covers i t) := by
  obtain ⟨hsorted, hgap⟩ := new_canonical_away_from_min l hrange
  have hg : List.Chain' (fun a b => a.«end» < b.start) (TimeIntervals.new l).intervals :=
    hgap.imp (fun hab => by omega)
  have hq := contains_time_iff_of_canonical (TimeIntervals.new l).intervals t hsorted hg
  rw [new_covers_iff l t hrange] at hq
  exact hq

/-- In a canonical sequence, every element of the tail starts strictly
beyond the head's end plus one. -/
theorem tail_far (c : TimeInterval) (cs : List TimeInterval)
    (hsort : List.Sorted startLE (c :: cs))
    (hchain : List.Chain' (fun a b => a.«end» + 1 < b.start) (c :: cs)) :
    ∀ i ∈ cs, c.«end» + 1 < i.start := by
  intro i hi
  cases cs with
  | nil => simp at hi
  | cons y ys =>
    have h1 : c.«end» + 1 < y.start := (List.chain'_cons.mp hchain).1
    rcases List.mem_cons.mp hi with rfl | hi'
    · exact h1
    · have h2 : y.start ≤ i.start := List.rel_of_sorted_cons hsort.of_cons i hi'
      omega

/-- Canonical sequences of valid intervals are determined by the set of
points they cover: two sorted, gap-separated, valid sequences with the same
coverage are equal. -/
theorem canonical_unique :
    ∀ m₁ m₂ : List TimeInterval,
      List.Sorted startLE m₁ → List.Chain' (fun a b => a.«end» + 1 < b.start) m₁ →
      (∀ i ∈ m₁, i.start ≤ i.«end») →
      List.Sorted startLE m₂ → List.Chain' (fun a b => a.«end» + 1 < b.start) m₂ →
      (∀ i ∈ m₂, i.start ≤ i.«end») →
      (∀ t : Int, (∃ i ∈ m₁, covers i t) ↔ (∃ i ∈ m₂, covers i t)) →
      m₁ = m₂ := by
  intro m₁
  induction m₁ with
  | nil =>
    intro m₂ _ _ _ hs₂ _ hv₂ hcov
    cases m₂ with
    | nil => rfl
    | cons b bs =>
      exfalso
      have hb : covers b b.start := ⟨le_refl _, hv₂ b (List.mem_cons_self b bs)⟩
      rcases (hcov b.start).mpr ⟨b, List.mem_cons_self b bs, hb⟩ with ⟨i, hi, _⟩
      exact List.not_mem_nil i hi
  | cons a as ih =>
    intro m₂ hs₁ hg₁ hv₁ hs₂ hg₂ hv₂ hcov
    cases m₂ with
    | nil =>
      exfalso
      have ha : covers a a.start := ⟨le_refl _, hv₁ a (List.mem_cons_self a as)⟩
      rcases (hcov a.start).mp ⟨a, List.mem_cons_self a as, ha⟩ with ⟨i, hi, _⟩
      exact List.not_mem_nil i hi
    | cons b bs =>
      have hva : a.start ≤ a.«end» := hv₁ a (List.mem_cons_self a as)
      have hvb : b.start ≤ b.«end» := hv₂ b (List.mem_cons_self b bs)
      have hstart : a.start = b.start := by
        have h₁ : b.start ≤ a.start := by
          rcases (hcov a.start).mp ⟨a, List.mem_cons_self a as, le_refl _, hva⟩
            with ⟨j, hj, hcj⟩
          have hbj : b.start ≤ j.start := by
            rcases List.mem_cons.mp hj with rfl | hj'
            · exact le_refl _
            · exact List.rel_of_sorted_cons hs₂ j hj'
          exact le_trans hbj hcj.1
        have h₂ : a.start ≤ b.start := by
          rcases (hcov b.start).mpr ⟨b, List.mem_cons_self b bs, le_refl _, hvb⟩
            with ⟨j, hj, hcj⟩
          have haj : a.start ≤ j.start := by
            rcases List.mem_cons.mp hj with rfl | hj'
            · exact le_refl _
            · exact List.rel_of_sorted_cons hs₁ j hj'
          exact le_trans haj hcj.1
        omega
      have hend : a.«end» = b.«end» := by
        by_contra hne
        rcases lt_or_gt_of_ne hne with hlt | hgt
        · have hbc : covers b (a.«end» + 1) := ⟨by omega, by omega⟩
          rcases (hcov (a.«end» + 1)).mpr ⟨b, List.mem_cons_self b bs, hbc⟩
            with ⟨j, hj, hcj⟩
          rcases List.mem_cons.mp hj with rfl | hj'
          · exact absurd hcj.2 (by omega)
          · have hfar := tail_far a as hs₁ hg₁ j hj'
            exact absurd hcj.1 (by omega)
        · have hac : covers a (b.«end» + 1) := ⟨by omega, by omega⟩
          rcases (hcov (b.«end» + 1)).mp ⟨a, List.mem_cons_self a as, hac⟩
            with ⟨j, hj, hcj⟩
          rcases List.mem_cons.mp hj with rfl | hj'
          · exact absurd hcj.2 (by omega)
          · have hfar := tail_far b bs hs₂ hg₂ j hj'
            exact absurd hcj.1 (by omega)
      have hab : a = b := by
        rcases a with ⟨a1, a2⟩
        rcases b with ⟨b1, b2⟩
        simp only at hstart hend
        rw [hstart, hend]
      subst hab
      have hcov' : ∀ t : Int, (∃ i ∈ as, covers i t) ↔ (∃ i ∈ bs, covers i t) := by
        intro t
        constructor
        · intro ⟨i, hi, hci⟩
          have hfar := tail_far a as hs₁ hg₁ i hi
          have hta : ¬ covers a t := by
            intro hca
            have h1 := hci.1
            have h2 := hca.2
            omega
          rcases (hcov t).mp ⟨i, List.mem_cons_of_mem a hi, hci⟩ with ⟨j, hj, hcj⟩
          rcases List.mem_cons.mp hj with rfl | hj'
          · exact absurd hcj hta
          · exact ⟨j, hj', hcj⟩
        · intro ⟨i, hi, hci⟩
          have hfar := tail_far a bs hs₂ hg₂ i hi
          have hta : ¬ covers a t := by
            intro hca
            have h1 := hci.1
            have h2 := hca.2
            omega
          rcases (hcov t).mpr ⟨i, List.mem_cons_of_mem a hi, hci⟩ with ⟨j, hj, hcj⟩
          rcases List.mem_cons.mp hj with rfl | hj'
          · exact absurd hcj hta
          · exact ⟨j, hj', hcj⟩
      rw [ih bs hs₁.of_cons hg₁.tail (fun i hi => hv₁ i (List.mem_cons_of_mem a hi))
        hs₂.of_cons hg₂.tail (fun i hi => hv₂ i (List.mem_cons_of_mem a hi)) hcov']

/-- The build preserves validity: every stored entry of a set built from
valid intervals satisfies `start ≤ end`. -/
theorem new_valid (l : List TimeInterval) (hval : ∀ i ∈ l, i.start ≤ i.«end») :
    ∀ j ∈ (TimeIntervals.new l).intervals, j.start ≤ j.«end» := by
  intro j hj
  rw [show (TimeIntervals.new l).intervals
      = ((sortByStart l).foldl mergeStep []).reverse from rfl, List.mem_reverse] at hj
  exact foldl_mergeStep_valid (sortByStart l) []
    (fun k hk => absurd hk (List.not_mem_nil k))
    (fun i hi => hval i ((List.perm_insertionSort startLE l).subset hi)) j hj

/-- Supporting C6 away from the overflow edge: building from any permutation
of a list of valid intervals whose starts are strictly above `i64::MIN`
(and at most `i64::MAX`) yields the same set. -/
theorem new_perm_eq (l₁ l₂ : List TimeInterval) (hperm : l₁.Perm l₂)
    (hval : ∀ i ∈ l₁, i.start ≤ i.«end»)
    (hrange : ∀ i ∈ l₁, i64min < i.start ∧ i.start ≤ i64max) :
    TimeIntervals.new l₁ = TimeIntervals.new l₂ := by
  have hval₂ : ∀ i ∈ l₂, i.start ≤ i.«end» := fun i hi => hval i (hperm.symm.subset hi)
  have hrange₂ : ∀ i ∈ l₂, i64min < i.start ∧ i.start ≤ i64max :=
    fun i hi => hrange i (hperm.symm.subset hi)
  obtain ⟨hs₁, hg₁⟩ := new_canonical_away_from_min l₁ hrange
  obtain ⟨hs₂, hg₂⟩ := new_canonical_away_from_min l₂ hrange₂
  have hcov : ∀ t : Int, (∃ i ∈ (TimeIntervals.new l₁).intervals, covers i t) ↔
      (∃ i ∈ (TimeIntervals.new l₂).intervals, covers i t) := by
    intro t
    rw [new_covers_iff l₁ t hrange, new_covers_iff l₂ t hrange₂]
    constructor
    · intro ⟨i, hi, h⟩
      exact ⟨i, hperm.subset hi, h⟩
    · intro ⟨i, hi, h⟩
      exact ⟨i, hperm.symm.subset hi, h⟩
  have hint := canonical_unique (TimeIntervals.new l₁).intervals
    (TimeIntervals.new l₂).intervals hs₁ hg₁ (new_valid l₁ hval)
    hs₂ hg₂ (new_valid l₂ hval₂) hcov
  calc TimeIntervals.new l₁ = ⟨(TimeIntervals.new l₁).intervals⟩ := rfl
    _ = ⟨(TimeIntervals.new l₂).intervals⟩ := by rw [hint]
    _ = TimeIntervals.new l₂ := rfl
